import Mathlib

/-!
Permission registry and bit-vector runtime (`entity/filter/filter.go`)

A shallow embedding of the Go package `filter`:

* `registry` with `Register` / `GetID`, the process-wide table that hands out
  permission indices;
* `BitSet` with `NewBitSet` / `Set` / `Has`, the growable bit vector of
  granted indices.

Conventions of the embedding.

* Go `int` values are modelled as `Int`.  `idx / 64` and `idx % 64` are Go's
  truncated division and remainder, `Int.tdiv` and `Int.tmod`: no overflow is
  possible in them.  The counter `nextID` is incremented once per map entry,
  so it cannot reach `2^63` before the map exhausts memory; it is kept as an
  unbounded `Int`.
* A `uint64` word is a `Nat`; the only operation on words that can leave the
  64-bit range, the shift `1 << bitIdx`, is reduced modulo `2^64`.
* A slice `[]uint64` is a `List Nat`; a `map[string]int` is an association
  list that holds each key once.
* A Go run-time panic is an `Except.error` carrying a `Fault`.
* Methods with a pointer receiver pass the receiver state explicitly: a
  method returns the state it leaves behind next to its result.
* The mutex of `registry` is not modelled: the embedding is sequential.
-/

namespace GoFilter

/-! ## Registry -/

/-- The struct `registry` (without its mutex): `permID map[string]int` and
`nextID int`. -/
structure registry where
  permID : List (String × Int)
  nextID : Int
deriving DecidableEq, Repr

/-- The package variable `Registry`, as initialised: an empty map and
`nextID: 0`. -/
def Registry : registry := ⟨[], 0⟩

/-- The entry stored for key `k`, if there is one. -/
def mapFind : List (String × Int) → String → Option Int
  | [], _ => none
  | (k', v) :: t, k => if k' = k then some v else mapFind t k

/-- Go's two-valued map read `id, ok := m[k]`: the stored value and `true`,
or the zero value `0` and `false`. -/
def mapLookup (m : List (String × Int)) (k : String) : Int × Bool :=
  match mapFind m k with
  | some v => (v, true)
  | none => (0, false)

/-- Go's map assignment `m[k] = v`: any previous entry for `k` is replaced. -/
def mapStore (m : List (String × Int)) (k : String) (v : Int) : List (String × Int) :=
  (k, v) :: m.filter (fun e => decide (e.1 ≠ k))

/-- Method `Register`: return the existing id of `perm`, or store `nextID`
for it and increment `nextID`.  Returns the id and the state left behind. -/
def registry.Register (r : registry) (perm : String) : Int × registry :=
  match mapLookup r.permID perm with
  | (id, true) => (id, r)
  | (_, false) =>
    let id := r.nextID
    (id, ⟨mapStore r.permID perm id, r.nextID + 1⟩)

/-- Method `GetID`: the two-valued map read, and the (untouched) state. -/
def registry.GetID (r : registry) (perm : String) : (Int × Bool) × registry :=
  (mapLookup r.permID perm, r)

/-- The state after calling `Register` on each identifier of a list in turn. -/
def registerAll (r : registry) : List String → registry
  | [] => r
  | p :: ps => registerAll (r.Register p).2 ps

/-- The indices returned by calling `Register` on each identifier of a list
in turn. -/
def registerTrace (r : registry) : List String → List Int
  | [] => []
  | p :: ps => (r.Register p).1 :: registerTrace (r.Register p).2 ps

/-- The number of distinct identifiers that occur in `ps` strictly before
the first occurrence of `p`. -/
def distinctBefore (ps : List String) (p : String) : Nat :=
  ((ps.take (ps.indexOf p)).dedup).length

/-- The registry reached from the initial `Registry` by calling `Register` on
each identifier of a list in turn. -/
def reached (ps : List String) : registry := registerAll Registry ps

/-- The invariant of the registry: each identifier is stored once, `nextID`
is the number of entries, and the stored indices are `n-1, ..., 0` from the
newest entry to the oldest. -/
def Inv (r : registry) : Prop :=
  (r.permID.map Prod.fst).Nodup ∧ r.nextID = (r.permID.length : Int) ∧
    r.permID.map Prod.snd = (List.range r.permID.length).reverse.map Int.ofNat

instance (r : registry) : Decidable (Inv r) := by
  unfold Inv
  infer_instance

/-! ## BitSet -/

/-- Go run-time panics that `Set` and `Has` can raise. -/
inductive Fault where
  | indexOutOfRange
  | negativeShift
deriving DecidableEq, Repr

deriving instance DecidableEq for Except

/-- The struct `BitSet`: `set []uint64`. -/
structure BitSet where
  set : List Nat
deriving DecidableEq, Repr

/-- Function `NewBitSet`: `make([]uint64, 1)`, one zero word. -/
def NewBitSet : BitSet := ⟨List.replicate 1 0⟩

/-- The shift `x << s` at type `uint64`, for a shift count `s ≥ 0`. -/
def shl64 (x s : Nat) : Nat := (x <<< s) % 2 ^ 64

/-- The loop `for len(b.set) <= wordIdx { b.set = append(b.set, 0) }`, run
for at most the given number of iterations. -/
def growLoop (wordIdx : Int) : Nat → List Nat → List Nat
  | 0, s => s
  | k + 1, s => if (s.length : Int) ≤ wordIdx then growLoop wordIdx k (s ++ [0]) else s

/-- The growth loop of `Set`.  Each iteration appends one word, so the loop
leaves after `wordIdx + 1 - len(b.set)` iterations (none if that is
negative); `grow_exit` shows that the loop condition is false then. -/
def grow (s : List Nat) (wordIdx : Int) : List Nat :=
  growLoop wordIdx (wordIdx + 1 - (s.length : Int)).toNat s

/-- Method `Set`.  After the growth loop, `b.set[wordIdx] |= 1 << bitIdx`
panics when `wordIdx` is outside the slice or when the shift count is
negative; otherwise the word is updated.  Go leaves the order of the two
checks open; where both fail the index fault is reported. -/
def BitSet.Set (b : BitSet) (idx : Int) : Except Fault BitSet :=
  let wordIdx := idx.tdiv 64
  let bitIdx := idx.tmod 64
  let s := grow b.set wordIdx
  if wordIdx < 0 ∨ (s.length : Int) ≤ wordIdx then .error .indexOutOfRange
  else if bitIdx < 0 then .error .negativeShift
  else .ok ⟨s.set wordIdx.toNat (s.getD wordIdx.toNat 0 ||| shl64 1 bitIdx.toNat)⟩

/-- Method `Has`.  Returns `false` when `wordIdx >= len(b.set)`; otherwise
`b.set[wordIdx] & (1 << bitIdx) != 0`, which panics when `wordIdx` is
negative or when the shift count is negative (where both fail the index
fault is reported).  The receiver is returned unchanged. -/
def BitSet.Has (b : BitSet) (idx : Int) : Except Fault (Bool × BitSet) :=
  let wordIdx := idx.tdiv 64
  let bitIdx := idx.tmod 64
  if wordIdx ≥ (b.set.length : Int) then .ok (false, b)
  else if wordIdx < 0 then .error .indexOutOfRange
  else if bitIdx < 0 then .error .negativeShift
  else .ok ((b.set.getD wordIdx.toNat 0 &&& shl64 1 bitIdx.toNat) != 0, b)

/-- The state after calling `Set` on each index of a list in turn; the first
panic aborts the sequence. -/
def BitSet.setAll (b : BitSet) : List Int → Except Fault BitSet
  | [] => .ok b
  | i :: is =>
    match b.Set i with
    | .ok b' => BitSet.setAll b' is
    | .error e => .error e

/-- Building a mask: for each granted identifier in turn,
`mask.Set(Registry.Register(g))`.  Returns the registry and the mask left
behind; the first panic aborts the sequence. -/
def grantAll (r : registry) (b : BitSet) : List String → Except Fault (registry × BitSet)
  | [] => .ok (r, b)
  | g :: gs =>
    match b.Set (r.Register g).1 with
    | .ok b' => grantAll (r.Register g).2 b' gs
    | .error e => .error e

/-- Bit `n` of the storage, read as one long bit string; words beyond the
storage read as zero. -/
def BitSet.bit (b : BitSet) (n : Nat) : Bool :=
  (b.set.getD (n / 64) 0).testBit (n % 64)

/-! ## Generator (`cmd/protoc-gen-gofilter`)

The generator's `main.go` is not among the sources; its tests are.  The data
below is what the tests build (`protogen.Field` with `GoName`, `Oneof` and a
descriptor answering `Kind`, `IsList`, `IsMap`, `HasOptionalKeyword`); the
two functions are modelled from the specification. -/

/-- The field kinds the zero-value policy tells apart: `StringKind`,
`BoolKind`, `MessageKind`, and the numeric kinds (`Int32Kind` in the tests).
The policy table names no other kind. -/
inductive Kind where
  | string
  | numeric
  | bool
  | message
deriving DecidableEq, Repr

/-- A field as the tests build it, with the permission identifier of its
annotation, if it has one. -/
structure Field where
  GoName : String
  kind : Kind
  isList : Bool
  isMap : Bool
  hasOptional : Bool
  inOneof : Bool
  permission : Option String
deriving DecidableEq, Repr

/-- A message definition: its Go name and its fields in declaration order. -/
structure Message where
  GoName : String
  Fields : List Field
deriving DecidableEq, Repr

/-- Modelled from the spec: the zero-value policy of `buildZeroValueStmt`
(`main.go` is missing).  Oneof membership and explicit-optional force the
absent value; then list and map detection; then the kind. -/
def zeroValue (f : Field) : String :=
  if f.inOneof || f.hasOptional then "nil"
  else if f.isList || f.isMap then "nil"
  else
    match f.kind with
    | .message => "nil"
    | .string => "\"\""
    | .bool => "false"
    | .numeric => "0"

/-- Modelled from the spec: `buildZeroValueStmt` (`main.go` is missing), the
assignment of the zero value to the field of the receiver `x`. -/
def buildZeroValueStmt (f : Field) : String :=
  "x." ++ f.GoName ++ " = " ++ zeroValue f

/-- Modelled from the spec: the top-level items the emitter (`main.go`, missing)
writes for a message: an index declaration, the `init` routine with its
`slot = Register(identifier)` calls, and the `FilterFields` method with its
guards and their zero-value statements. -/
inductive Decl where
  | indexVar (slot : String)
  | initFunc (registers : List (String × String))
  | filterFields (msg : String) (guards : List (String × String))
deriving DecidableEq, Repr

/-- The name of the slot that holds the index of an annotated field. -/
def slotName (msg : String) (f : Field) : String :=
  "_PermIdx_" ++ msg ++ "_" ++ f.GoName

/-- The guard of an annotated field in the redaction method. -/
def guardCond (msg : String) (f : Field) : String :=
  "if !mask.Has(" ++ slotName msg f ++ ")"

/-- Modelled from the spec: step 1 of the emitter (`main.go`, missing), the
annotated fields of a message with their permission identifiers, in
declaration order. -/
def annotated : List Field → List (Field × String)
  | [] => []
  | f :: fs =>
    match f.permission with
    | some p => (f, p) :: annotated fs
    | none => annotated fs

/-- Modelled from the spec: the message emitter (`main.go` is missing).
Nothing for a message without annotated fields; otherwise one slot per
annotated field, one `init` that stores `Register(identifier)` in each slot,
and one `FilterFields` method with one guard per annotated field, each
assigning the zero value of `buildZeroValueStmt`. -/
def emitMessage (m : Message) : List Decl :=
  match annotated m.Fields with
  | [] => []
  | a :: as =>
    (a :: as).map (fun fp => Decl.indexVar (slotName m.GoName fp.1)) ++
      [Decl.initFunc ((a :: as).map (fun fp => (slotName m.GoName fp.1, fp.2))),
       Decl.filterFields m.GoName
         ((a :: as).map (fun fp => (guardCond m.GoName fp.1, buildZeroValueStmt fp.1)))]

/-- Whether an item is a `FilterFields` method. -/
def Decl.isFilterFields : Decl → Bool
  | .filterFields _ _ => true
  | _ => false

/-- Whether an item is an index declaration. -/
def Decl.isIndexVar : Decl → Bool
  | .indexVar _ => true
  | _ => false

/-! ## The map -/

theorem mapFind_filter_ne (k k' : String) (hne : k' ≠ k) : ∀ m : List (String × Int),
    mapFind (m.filter (fun e => decide (e.1 ≠ k))) k' = mapFind m k' := by
  intro m
  induction m with
  | nil => rfl
  | cons e t ih =>
    obtain ⟨a, v⟩ := e
    by_cases h : a = k
    · have h' : ¬ a = k' := fun e => hne (e ▸ h)
      rw [List.filter_cons_of_neg (by simpa using h), ih, mapFind, if_neg h']
    · rw [List.filter_cons_of_pos (by simpa using h), mapFind, mapFind, ih]

theorem filter_of_mapFind_none (k : String) : ∀ m : List (String × Int),
    mapFind m k = none → m.filter (fun e => decide (e.1 ≠ k)) = m := by
  intro m
  induction m with
  | nil => intro _; rfl
  | cons e t ih =>
    obtain ⟨a, v⟩ := e
    intro h
    by_cases hk : a = k
    · simp [mapFind, hk] at h
    · simp only [mapFind, if_neg hk] at h
      rw [List.filter_cons_of_pos (by simpa using hk), ih h]

theorem mapFind_store_self (m : List (String × Int)) (k : String) (v : Int) :
    mapFind (mapStore m k v) k = some v := by
  simp [mapStore, mapFind]

theorem mapFind_store_ne (m : List (String × Int)) (k k' : String) (v : Int) (hne : k' ≠ k) :
    mapFind (mapStore m k v) k' = mapFind m k' := by
  simp only [mapStore, mapFind, if_neg (Ne.symm hne)]
  exact mapFind_filter_ne k k' hne m

theorem mem_of_mapFind : ∀ (m : List (String × Int)) (k : String) (v : Int),
    mapFind m k = some v → (k, v) ∈ m := by
  intro m
  induction m with
  | nil => intro k v h; simp [mapFind] at h
  | cons e t ih =>
    obtain ⟨a, w⟩ := e
    intro k v h
    by_cases hk : a = k
    · simp only [mapFind, if_pos hk, Option.some.injEq] at h
      simp [hk, h]
    · simp only [mapFind, if_neg hk] at h
      exact List.mem_cons_of_mem _ (ih k v h)

theorem mapFind_of_mem : ∀ (m : List (String × Int)) (k : String) (v : Int),
    (m.map Prod.fst).Nodup → (k, v) ∈ m → mapFind m k = some v := by
  intro m
  induction m with
  | nil => intro k v _ h; simp at h
  | cons e t ih =>
    obtain ⟨a, w⟩ := e
    intro k v hnd h
    simp only [List.map_cons, List.nodup_cons] at hnd
    rcases List.mem_cons.mp h with h | h
    · simp only [Prod.mk.injEq] at h
      simp [mapFind, h.1, h.2]
    · have hk : a ≠ k := by
        intro e
        exact hnd.1 (e ▸ List.mem_map_of_mem Prod.fst h)
      simp only [mapFind, if_neg hk]
      exact ih k v hnd.2 h

theorem mapFind_none_iff (m : List (String × Int)) (k : String) :
    mapFind m k = none ↔ k ∉ m.map Prod.fst := by
  induction m with
  | nil => simp [mapFind]
  | cons e t ih =>
    obtain ⟨a, w⟩ := e
    by_cases hk : a = k
    · simp [mapFind, hk]
    · simp only [mapFind, if_neg hk, ih, List.map_cons, List.mem_cons, not_or]
      exact ⟨fun h => ⟨fun e => hk e.symm, h⟩, fun h => h.2⟩

theorem mapLookup_eq_true (m : List (String × Int)) (k : String) (i : Int) :
    mapLookup m k = (i, true) ↔ mapFind m k = some i := by
  unfold mapLookup
  cases mapFind m k <;> simp

theorem mapLookup_eq_false (m : List (String × Int)) (k : String) :
    (mapLookup m k).2 = false ↔ mapFind m k = none := by
  unfold mapLookup
  cases mapFind m k <;> simp

/-! ## `Register` and `GetID` -/

theorem Register_of_some (r : registry) (p : String) (i : Int)
    (h : mapFind r.permID p = some i) : r.Register p = (i, r) := by
  simp [registry.Register, mapLookup, h]

theorem Register_of_none (r : registry) (p : String) (h : mapFind r.permID p = none) :
    r.Register p = (r.nextID, ⟨(p, r.nextID) :: r.permID, r.nextID + 1⟩) := by
  simp only [registry.Register, mapLookup, h, mapStore, filter_of_mapFind_none p _ h]

theorem GetID_eq_true (r : registry) (p : String) (i : Int) :
    (r.GetID p).1 = (i, true) ↔ mapFind r.permID p = some i :=
  mapLookup_eq_true _ _ _

theorem GetID_eq_false (r : registry) (p : String) :
    (r.GetID p).1.2 = false ↔ mapFind r.permID p = none :=
  mapLookup_eq_false _ _

/-- After `Register(p)` the map holds the returned index for `p`. -/
theorem mapFind_Register_self (r : registry) (p : String) :
    mapFind (r.Register p).2.permID p = some (r.Register p).1 := by
  cases h : mapFind r.permID p with
  | none => rw [Register_of_none r p h]; simp [mapFind]
  | some i => rw [Register_of_some r p i h]; exact h

/-- A second `Register(p)` returns the same index and changes nothing. -/
theorem Register_twice (r : registry) (p : String) :
    (r.Register p).2.Register p = ((r.Register p).1, (r.Register p).2) :=
  Register_of_some _ _ _ (mapFind_Register_self r p)

/-- An entry of the map survives any `Register` call. -/
theorem mapFind_Register_of_some (r : registry) (p q : String) (i : Int)
    (h : mapFind r.permID p = some i) : mapFind (r.Register q).2.permID p = some i := by
  cases hq : mapFind r.permID q with
  | some j => rw [Register_of_some r q j hq]; exact h
  | none =>
    have hne : q ≠ p := by
      intro e
      rw [e, h] at hq
      exact Option.noConfusion hq
    rw [Register_of_none r q hq]
    simp [mapFind, hne, h]

theorem Inv_init : Inv Registry := by decide

theorem Inv_Register (r : registry) (p : String) (h : Inv r) : Inv (r.Register p).2 := by
  cases hp : mapFind r.permID p with
  | some i => rw [Register_of_some r p i hp]; exact h
  | none =>
    rw [Register_of_none r p hp]
    obtain ⟨h1, h2, h3⟩ := h
    refine ⟨?_, ?_, ?_⟩
    · simp only [List.map_cons, List.nodup_cons]
      exact ⟨(mapFind_none_iff _ _).mp hp, h1⟩
    · simp only [List.length_cons, Nat.cast_add, Nat.cast_one, h2]
    · simp only [List.map_cons, List.length_cons, List.range_succ, List.reverse_append,
        List.reverse_singleton, List.singleton_append, h3, h2]
      rfl

theorem registerAll_append (r : registry) (ps qs : List String) :
    registerAll r (ps ++ qs) = registerAll (registerAll r ps) qs := by
  induction ps generalizing r with
  | nil => rfl
  | cons p ps ih =>
    show registerAll (r.Register p).2 (ps ++ qs) = _
    exact ih _

theorem registerTrace_append (r : registry) (ps qs : List String) :
    registerTrace r (ps ++ qs) = registerTrace r ps ++ registerTrace (registerAll r ps) qs := by
  induction ps generalizing r with
  | nil => rfl
  | cons p ps ih =>
    show (r.Register p).1 :: registerTrace (r.Register p).2 (ps ++ qs) = _
    rw [ih]
    rfl

theorem Inv_registerAll (ps : List String) : ∀ r : registry, Inv r → Inv (registerAll r ps) := by
  induction ps with
  | nil => intro r h; exact h
  | cons p ps ih => intro r h; exact ih _ (Inv_Register r p h)

/-! ## The registry after a sequence of `Register` calls -/

theorem distinctBefore_append_of_mem (ps qs : List String) (p : String) (h : p ∈ ps) :
    distinctBefore (ps ++ qs) p = distinctBefore ps p := by
  have hlt : ps.indexOf p ≤ ps.length := List.indexOf_le_length
  rw [distinctBefore, distinctBefore, List.indexOf_append_of_mem h,
    List.take_append_of_le_length hlt]

theorem distinctBefore_append_cons_of_not_mem (ps qs : List String) (p : String) (h : p ∉ ps) :
    distinctBefore (ps ++ p :: qs) p = ps.dedup.length := by
  rw [distinctBefore, List.indexOf_append_of_not_mem h, List.indexOf_cons_self,
    Nat.add_zero, List.take_left]

theorem dedup_length_snoc_of_mem (ps : List String) (q : String) (h : q ∈ ps) :
    (ps ++ [q]).dedup.length = ps.dedup.length := by
  rw [← List.card_toFinset, ← List.card_toFinset, List.toFinset_append]
  congr 1
  apply Finset.union_eq_left.mpr
  intro x hx
  simp only [List.toFinset_cons, List.toFinset_nil, insert_emptyc_eq,
    Finset.mem_singleton] at hx
  rw [hx]
  exact List.mem_toFinset.mpr h

theorem dedup_length_snoc_of_not_mem (ps : List String) (q : String) (h : q ∉ ps) :
    (ps ++ [q]).dedup.length = ps.dedup.length + 1 := by
  rw [← List.card_toFinset, ← List.card_toFinset, List.toFinset_append, Finset.union_comm]
  simp only [List.toFinset_cons, List.toFinset_nil, insert_emptyc_eq]
  rw [← Finset.insert_eq]
  exact Finset.card_insert_of_not_mem (fun hx => h (List.mem_toFinset.mp hx))

/-- The registry reached from the initial one by registering `ps`: the counter
is the number of distinct identifiers of `ps`, and the map sends each
identifier of `ps` to the number of distinct identifiers before its first
occurrence, and holds nothing else. -/
theorem registerAll_spec (ps : List String) :
    (registerAll Registry ps).nextID = (ps.dedup.length : Int) ∧
    ∀ p, mapFind (registerAll Registry ps).permID p
      = if p ∈ ps then some (distinctBefore ps p : Int) else none := by
  induction ps using List.reverseRecOn with
  | nil => exact ⟨rfl, fun p => by simp [registerAll, Registry, mapFind]⟩
  | append_singleton ps q ih =>
    obtain ⟨ihn, ihm⟩ := ih
    have hst : registerAll Registry (ps ++ [q]) = ((registerAll Registry ps).Register q).2 := by
      rw [registerAll_append]
      rfl
    rw [hst]
    by_cases hq : q ∈ ps
    · have hf := ihm q
      rw [if_pos hq] at hf
      rw [Register_of_some _ q _ hf]
      refine ⟨by rw [ihn, dedup_length_snoc_of_mem ps q hq], fun p => ?_⟩
      rw [ihm p]
      by_cases hp : p ∈ ps
      · rw [if_pos hp, if_pos (List.mem_append_left _ hp), distinctBefore_append_of_mem _ _ _ hp]
      · have hp' : p ∉ ps ++ [q] := by
          simp only [List.mem_append, List.mem_singleton, not_or]
          exact ⟨hp, fun e => hp (e ▸ hq)⟩
        rw [if_neg hp, if_neg hp']
    · have hf := ihm q
      rw [if_neg hq] at hf
      rw [Register_of_none _ q hf]
      refine ⟨?_, fun p => ?_⟩
      · simp only [ihn, dedup_length_snoc_of_not_mem ps q hq, Nat.cast_add, Nat.cast_one]
      · by_cases hpq : q = p
        · subst hpq
          simp only [mapFind, if_true]
          rw [if_pos (by simp), distinctBefore_append_cons_of_not_mem _ _ _ hq, ihn]
        · simp only [mapFind, if_neg hpq]
          rw [ihm p]
          by_cases hp : p ∈ ps
          · rw [if_pos hp, if_pos (List.mem_append_left _ hp),
              distinctBefore_append_of_mem _ _ _ hp]
          · have hp' : p ∉ ps ++ [q] := by
              simp only [List.mem_append, List.mem_singleton, not_or]
              exact ⟨hp, fun e => hpq e.symm⟩
            rw [if_neg hp, if_neg hp']

theorem reached_snoc (ps : List String) (q : String) :
    reached (ps ++ [q]) = ((reached ps).Register q).2 := by
  rw [reached, registerAll_append]
  rfl

theorem Inv_reached (ps : List String) : Inv (reached ps) :=
  Inv_registerAll ps Registry Inv_init

theorem mem_values_iff (r : registry) (h : Inv r) (i : Int) :
    i ∈ r.permID.map Prod.snd ↔ 0 ≤ i ∧ i < r.nextID := by
  rw [h.2.2, h.2.1]
  simp only [List.mem_map, List.mem_reverse, List.mem_range]
  constructor
  · rintro ⟨k, hk, rfl⟩
    exact ⟨Int.ofNat_nonneg k, Int.ofNat_lt.mpr hk⟩
  · rintro ⟨h0, h1⟩
    obtain ⟨k, rfl⟩ := Int.eq_ofNat_of_zero_le h0
    exact ⟨k, Int.ofNat_lt.mp h1, rfl⟩

theorem values_nodup (r : registry) (h : Inv r) : (r.permID.map Prod.snd).Nodup := by
  rw [h.2.2]
  apply List.Nodup.map
  · intro a b hab
    exact Int.ofNat.inj hab
  · exact List.nodup_reverse.mpr (List.nodup_range _)

/-- Under the invariant, two identifiers with the same index are equal. -/
theorem mapFind_inj (r : registry) (h : Inv r) (p q : String) (i : Int)
    (hp : mapFind r.permID p = some i) (hq : mapFind r.permID q = some i) : p = q := by
  have e := List.inj_on_of_nodup_map (values_nodup r h)
    (mem_of_mapFind _ _ _ hp) (mem_of_mapFind _ _ _ hq) rfl
  exact (Prod.mk.inj e).1

/-- Under the invariant, every index below the counter is stored for some
identifier. -/
theorem mapFind_surj (r : registry) (h : Inv r) (i : Int) (h0 : 0 ≤ i) (h1 : i < r.nextID) :
    ∃ p, mapFind r.permID p = some i := by
  obtain ⟨e, he, hei⟩ := List.mem_map.mp ((mem_values_iff r h i).mpr ⟨h0, h1⟩)
  obtain ⟨k, v⟩ := e
  simp only at hei
  subst hei
  exact ⟨k, mapFind_of_mem _ _ _ h.1 he⟩

/-- The index `Register(p)` returns in the registry reached by registering
`ps`. -/
theorem Register_after (ps : List String) (p : String) :
    ((registerAll Registry ps).Register p).1 = (distinctBefore (ps ++ [p]) p : Int) := by
  obtain ⟨hn, hm⟩ := registerAll_spec ps
  have hf := hm p
  by_cases hp : p ∈ ps
  · rw [if_pos hp] at hf
    rw [Register_of_some _ p _ hf, distinctBefore_append_of_mem _ _ _ hp]
  · rw [if_neg hp] at hf
    rw [Register_of_none _ p hf, distinctBefore_append_cons_of_not_mem _ _ _ hp, hn]

/-- The indices returned by registering `ps` on the initial registry, in
closed form. -/
theorem registerTrace_eq (ps : List String) :
    registerTrace Registry ps = ps.map (fun p => (distinctBefore ps p : Int)) := by
  induction ps using List.reverseRecOn with
  | nil => rfl
  | append_singleton ps q ih =>
    rw [registerTrace_append, ih, List.map_append]
    congr 1
    · apply List.map_congr_left
      intro p hp
      rw [distinctBefore_append_of_mem _ _ _ hp]
    · simp only [registerTrace, List.map_cons, List.map_nil]
      rw [Register_after]

theorem zip_map_self {α β : Type} (f : α → β) : ∀ l : List α,
    List.zip l (l.map f) = l.map (fun a => (a, f a)) := by
  intro l
  induction l with
  | nil => rfl
  | cons a t ih => simp only [List.map_cons, List.zip_cons_cons, ih]

/-! ## Claims on the registry -/

/-- C3: in every registry state reached from the initial registry by
`Register` calls, a second consecutive `Register(p)` returns the index of the
first and leaves the state (map and counter) as the first call left it. -/
theorem C3_register_idempotent (ps : List String) (p : String) :
    (((reached ps).Register p).2.Register p).1 = ((reached ps).Register p).1 ∧
    (((reached ps).Register p).2.Register p).2 = ((reached ps).Register p).2 := by
  rw [Register_twice]
  exact ⟨rfl, rfl⟩

/-- C4: in every reached registry state, for distinct identifiers `p1` and
`p2` that are both unregistered, `Register(p1)` then `Register(p2)` return
`index(p1) < index(p2)`, and `index(p1)` is the number of distinct
identifiers registered before, which is the number of map entries, and is `0`
on the initial registry. -/
theorem C4_fresh_monotonic (ps : List String) (p1 p2 : String) (hne : p1 ≠ p2)
    (h1 : ((reached ps).GetID p1).1.2 = false) (h2 : ((reached ps).GetID p2).1.2 = false) :
    ((reached ps).Register p1).1 < (((reached ps).Register p1).2.Register p2).1 ∧
    ((reached ps).Register p1).1 = (ps.dedup.length : Int) ∧
    ((reached ps).Register p1).1 = ((reached ps).permID.length : Int) ∧
    (ps = [] → ((reached ps).Register p1).1 = 0) := by
  have f1 := (GetID_eq_false _ _).mp h1
  have f2 := (GetID_eq_false _ _).mp h2
  have hn := (registerAll_spec ps).1
  have hi := Inv_reached ps
  rw [Register_of_none _ p1 f1]
  have f2' : mapFind
      (registry.mk ((p1, (reached ps).nextID) :: (reached ps).permID)
        ((reached ps).nextID + 1)).permID p2 = none := by
    simp only [mapFind, if_neg hne]
    exact f2
  rw [Register_of_none _ p2 f2']
  refine ⟨by simp, hn, hi.2.1, ?_⟩
  intro e
  subst e
  rfl

theorem C4_fresh_monotonic_witness :
    ("b" : String) ≠ "c" ∧
    ((reached ["a", "a"]).GetID "b").1.2 = false ∧ ((reached ["a", "a"]).GetID "c").1.2 = false ∧
    (((reached ["a", "a"]).Register "b").1
        < (((reached ["a", "a"]).Register "b").2.Register "c").1 ∧
      ((reached ["a", "a"]).Register "b").1 = ((["a", "a"] : List String).dedup.length : Int) ∧
      ((reached ["a", "a"]).Register "b").1 = ((reached ["a", "a"]).permID.length : Int) ∧
      ((["a", "a"] : List String) = [] → ((reached ["a", "a"]).Register "b").1 = 0)) :=
  ⟨by decide, by decide, by decide,
    C4_fresh_monotonic ["a", "a"] "b" "c" (by decide) (by decide) (by decide)⟩

/-- C5: in every reached registry state the map is a bijection between the
registered identifiers and the integers `0..n-1`, where `n` is the number of
map entries, the number of distinct registered identifiers and the value of
`nextID`: each identifier is stored once, every stored index lies in
`0..n-1`, every integer of `0..n-1` is the index of some identifier, and two
identifiers with the same index are equal. -/
theorem C5_indices_bijective (ps : List String) :
    ((reached ps).permID.map Prod.fst).Nodup ∧
    (reached ps).nextID = ((reached ps).permID.length : Int) ∧
    (reached ps).permID.length = ps.dedup.length ∧
    (∀ p, ((reached ps).GetID p).1.2 = true ↔ p ∈ ps) ∧
    (∀ p i, ((reached ps).GetID p).1 = (i, true) → 0 ≤ i ∧ i < (reached ps).nextID) ∧
    (∀ i, 0 ≤ i → i < (reached ps).nextID → ∃ p, ((reached ps).GetID p).1 = (i, true)) ∧
    (∀ p q i, ((reached ps).GetID p).1 = (i, true) → ((reached ps).GetID q).1 = (i, true) →
      p = q) := by
  have hi := Inv_reached ps
  obtain ⟨hn, hm⟩ := registerAll_spec ps
  refine ⟨hi.1, hi.2.1, ?_, ?_, ?_, ?_, ?_⟩
  · have e : ((reached ps).permID.length : Int) = (ps.dedup.length : Int) := by
      rw [← hi.2.1]
      exact hn
    exact_mod_cast e
  · intro p
    have hp := hm p
    by_cases hmem : p ∈ ps
    · rw [if_pos hmem] at hp
      have := (GetID_eq_true (reached ps) p _).mpr hp
      simp [this, hmem]
    · rw [if_neg hmem] at hp
      have := (GetID_eq_false (reached ps) p).mpr hp
      simp [this, hmem]
  · intro p i h
    exact (mem_values_iff _ hi i).mp
      (List.mem_map_of_mem Prod.snd (mem_of_mapFind _ _ _ ((GetID_eq_true _ _ _).mp h)))
  · intro i h0 h1
    obtain ⟨p, hp⟩ := mapFind_surj _ hi i h0 h1
    exact ⟨p, (GetID_eq_true _ _ _).mpr hp⟩
  · intro p q i hp hq
    exact mapFind_inj _ hi p q i ((GetID_eq_true _ _ _).mp hp) ((GetID_eq_true _ _ _).mp hq)

/-- C6: if `p` has index `i` in a reached registry state, then after any
further `Register(q)` the identifier `p` still has index `i`, and no other
identifier has index `i`; that `p` keeps its index holds from every registry
state. -/
theorem C6_assignments_permanent (ps : List String) (p q : String) (i : Int)
    (h : ((reached ps).GetID p).1 = (i, true)) :
    (((reached ps).Register q).2.GetID p).1 = (i, true) ∧
    (∀ p', (((reached ps).Register q).2.GetID p').1 = (i, true) → p' = p) ∧
    (∀ r : registry, (r.GetID p).1 = (i, true) →
      ((r.Register q).2.GetID p).1 = (i, true)) := by
  have hp := mapFind_Register_of_some _ p q i ((GetID_eq_true _ _ _).mp h)
  refine ⟨(GetID_eq_true _ _ _).mpr hp, fun p' h' => ?_, fun r hr => ?_⟩
  · have hi : Inv ((reached ps).Register q).2 := Inv_Register _ q (Inv_reached ps)
    exact mapFind_inj _ hi p' p i ((GetID_eq_true _ _ _).mp h') hp
  · exact (GetID_eq_true _ _ _).mpr
      (mapFind_Register_of_some r p q i ((GetID_eq_true _ _ _).mp hr))

theorem C6_assignments_permanent_witness :
    ((reached ["a", "b"]).GetID "b").1 = (1, true) ∧
    ((((reached ["a", "b"]).Register "c").2.GetID "b").1 = (1, true) ∧
    (∀ p', (((reached ["a", "b"]).Register "c").2.GetID p').1 = (1, true) → p' = "b") ∧
    (∀ r : registry, (r.GetID "b").1 = (1, true) →
      ((r.Register "c").2.GetID "b").1 = (1, true))) :=
  ⟨by decide, C6_assignments_permanent ["a", "b"] "b" "c" 1 (by decide)⟩

/-- C7: `GetID` leaves every registry state unchanged and returns the index
of `p` with `true` right after `Register(p)`; in a reached state it returns
`(i, true)` exactly when an earlier call `Register(p)` returned `i`, and
`(0, false)` when `p` was never registered. -/
theorem C7_getid_reads (ps : List String) (p : String) :
    (∀ r : registry, (r.GetID p).2 = r ∧
      ((r.Register p).2.GetID p).1 = ((r.Register p).1, true)) ∧
    (∀ i, ((reached ps).GetID p).1 = (i, true) ↔
      (p, i) ∈ List.zip ps (registerTrace Registry ps)) ∧
    (p ∉ ps → ((reached ps).GetID p).1 = (0, false)) := by
  obtain ⟨_, hm⟩ := registerAll_spec ps
  have hp := hm p
  refine ⟨fun r => ⟨rfl, (GetID_eq_true _ _ _).mpr (mapFind_Register_self r p)⟩, ?_, ?_⟩
  · intro i
    rw [GetID_eq_true, registerTrace_eq, zip_map_self, reached, hp]
    simp only [List.mem_map, Prod.mk.injEq]
    constructor
    · intro h
      by_cases hmem : p ∈ ps
      · rw [if_pos hmem] at h
        exact ⟨p, hmem, rfl, Option.some.inj h⟩
      · rw [if_neg hmem] at h
        exact Option.noConfusion h
    · rintro ⟨a, ha, rfl, rfl⟩
      rw [if_pos ha]
  · intro hmem
    rw [if_neg hmem] at hp
    simp only [registry.GetID, mapLookup]
    rw [show mapFind (reached ps).permID p = none from hp]

/-- C10: for every sequence of identifiers registered in order on the initial
registry, the `k`-th call returns the number of distinct identifiers that
occur strictly before the first occurrence of the `k`-th identifier. -/
theorem C10_first_registration_order (ps : List String) (k : Nat) (hk : k < ps.length) :
    (registerTrace Registry ps)[k]? = some (distinctBefore ps ps[k] : Int) := by
  rw [registerTrace_eq, List.getElem?_map, List.getElem?_eq_getElem hk]
  rfl

theorem C10_first_registration_order_witness :
    3 < (["a", "b", "a", "c", "b"] : List String).length ∧
    (registerTrace Registry ["a", "b", "a", "c", "b"])[3]?
      = some (distinctBefore ["a", "b", "a", "c", "b"] "c" : Int) :=
  ⟨by decide, C10_first_registration_order ["a", "b", "a", "c", "b"] 3 (by decide)⟩

/-! ## The growth loop -/

theorem growLoop_eq (w : Int) : ∀ (k : Nat) (s : List Nat),
    growLoop w k s = s ++ List.replicate (min k (w + 1 - (s.length : Int)).toNat) 0 := by
  intro k
  induction k with
  | zero => intro s; simp [growLoop]
  | succ k ih =>
    intro s
    by_cases h : (s.length : Int) ≤ w
    · have e : min (k + 1) (w + 1 - (s.length : Int)).toNat
          = min k (w + 1 - ((s ++ [0]).length : Int)).toNat + 1 := by
        simp only [List.length_append, List.length_singleton]
        omega
      rw [growLoop, if_pos h, ih, e, List.replicate_succ, List.append_assoc]
      rfl
    · have e : min (k + 1) (w + 1 - (s.length : Int)).toNat = 0 := by omega
      rw [growLoop, if_neg h, e]
      simp

theorem grow_eq (s : List Nat) (w : Int) :
    grow s w = s ++ List.replicate (w + 1 - (s.length : Int)).toNat 0 := by
  rw [grow, growLoop_eq, Nat.min_self]

theorem grow_length (s : List Nat) (w : Int) :
    ((grow s w).length : Int) = max (s.length : Int) (w + 1) := by
  rw [grow_eq, List.length_append, List.length_replicate]
  omega

/-- The growth loop is left with its condition `len(b.set) <= wordIdx` false. -/
theorem grow_exit (s : List Nat) (w : Int) : ¬ ((grow s w).length : Int) ≤ w := by
  rw [grow_length]
  omega

/-- Reading a word of the grown storage, with words beyond the end read as
zero, gives the word of the old storage. -/
theorem grow_getD (s : List Nat) (w : Int) (j : Nat) :
    (grow s w).getD j 0 = s.getD j 0 := by
  rw [grow_eq]
  by_cases h : j < s.length
  · rw [List.getD_append _ _ _ _ h]
  · rw [List.getD_append_right _ _ _ _ (by omega), List.getD_eq_default s 0 (by omega)]
    simp [List.getD_eq_getElem?_getD, List.getElem?_replicate]
    split <;> rfl

/-! ## Words and bits -/

theorem shl64_one (k : Nat) (hk : k < 64) : shl64 1 k = 2 ^ k := by
  have h : 2 ^ k < 2 ^ 64 := Nat.pow_lt_pow_right (by decide) hk
  rw [shl64, Nat.one_shiftLeft, Nat.mod_eq_of_lt h]

/-- The test `w & (1 << k) != 0` reads bit `k` of `w`. -/
theorem and_shl64_ne_zero (w k : Nat) (hk : k < 64) :
    ((w &&& shl64 1 k) != 0) = w.testBit k := by
  rw [shl64_one k hk, Nat.and_two_pow]
  have h2 : 2 ^ k ≠ 0 := by positivity
  cases w.testBit k <;> simp [h2]

/-- The update `w | (1 << k)` sets bit `k` of `w` and no other bit. -/
theorem or_shl64_testBit (w k j : Nat) (hk : k < 64) :
    (w ||| shl64 1 k).testBit j = (decide (j = k) || w.testBit j) := by
  rw [shl64_one k hk, Nat.testBit_or, Nat.testBit_two_pow, Bool.or_comm]
  congr 1
  simp [eq_comm]

theorem tdiv_ofNat (n : Nat) : (n : Int).tdiv 64 = ((n / 64 : Nat) : Int) := by
  rw [Int.tdiv_eq_ediv (by omega) (by omega)]
  omega

theorem tmod_ofNat (n : Nat) : (n : Int).tmod 64 = ((n % 64 : Nat) : Int) := by
  rw [Int.tmod_eq_emod (by omega) (by omega)]
  omega

theorem index_eq_iff (m n : Nat) : m = n ↔ m / 64 = n / 64 ∧ m % 64 = n % 64 := by
  omega

/-! ## `Has` and `Set` on non-negative indices -/

/-- On a non-negative index `Has` returns the addressed bit and leaves the
receiver as it was. -/
theorem Has_ofNat (b : BitSet) (n : Nat) : b.Has (n : Int) = .ok (b.bit n, b) := by
  have hk : n % 64 < 64 := Nat.mod_lt _ (by decide)
  simp only [BitSet.Has, tdiv_ofNat, tmod_ofNat, BitSet.bit]
  by_cases h : b.set.length ≤ n / 64
  · rw [if_pos (by exact_mod_cast h), List.getD_eq_default _ _ h]
    simp
  · rw [if_neg (by exact_mod_cast h), if_neg (by omega), if_neg (by omega)]
    simp only [Int.toNat_ofNat]
    rw [and_shl64_ne_zero _ _ hk]

/-- On a non-negative index `Set` returns normally. -/
theorem Set_ofNat (b : BitSet) (n : Nat) :
    b.Set (n : Int) = .ok ⟨(grow b.set (n / 64 : Nat)).set (n / 64)
      ((grow b.set (n / 64 : Nat)).getD (n / 64) 0 ||| shl64 1 (n % 64))⟩ := by
  have hx := grow_exit b.set ((n / 64 : Nat) : Int)
  simp only [BitSet.Set, tdiv_ofNat, tmod_ofNat]
  rw [if_neg (by omega), if_neg (by omega)]
  simp only [Int.toNat_ofNat]

/-- The bits of the storage after `Set n`: bit `n` is set, every other bit is
as before. -/
theorem Set_ofNat_bit (b b' : BitSet) (n m : Nat) (h : b.Set (n : Int) = .ok b') :
    b'.bit m = (decide (m = n) || b.bit m) := by
  have hk : n % 64 < 64 := Nat.mod_lt _ (by decide)
  have hx := grow_exit b.set ((n / 64 : Nat) : Int)
  have hlen : n / 64 < (grow b.set ((n / 64 : Nat) : Int)).length := by omega
  rw [Set_ofNat] at h
  injection h with h
  subst h
  simp only [BitSet.bit]
  by_cases hw : m / 64 = n / 64
  · rw [hw, List.getD_eq_getElem?_getD, List.getElem?_set_self hlen]
    simp only [Option.getD_some]
    rw [or_shl64_testBit _ _ _ hk, grow_getD]
    congr 1
    simp only [decide_eq_decide]
    omega
  · rw [List.getD_eq_getElem?_getD, List.getElem?_set_ne (Ne.symm hw),
      ← List.getD_eq_getElem?_getD, grow_getD]
    have : decide (m = n) = false := by
      simp only [decide_eq_false_iff_not]
      omega
    rw [this, Bool.false_or]

theorem getD_lt (s : List Nat) (j : Nat) (hw : ∀ w ∈ s, w < 2 ^ 64) : s.getD j 0 < 2 ^ 64 := by
  by_cases h : j < s.length
  · rw [List.getD_eq_getElem _ _ h]
    exact hw _ (List.getElem_mem h)
  · rw [List.getD_eq_default _ _ (by omega)]
    decide

/-- The words stay 64-bit words: if every word of the storage is below `2^64`
before `Set`, so is every word after it. -/
theorem Set_words_lt (b b' : BitSet) (n : Nat) (h : b.Set (n : Int) = .ok b')
    (hw : ∀ w ∈ b.set, w < 2 ^ 64) : ∀ w ∈ b'.set, w < 2 ^ 64 := by
  have hk : n % 64 < 64 := Nat.mod_lt _ (by decide)
  rw [Set_ofNat] at h
  injection h with h
  subst h
  intro w hmem
  rcases List.mem_or_eq_of_mem_set hmem with h1 | h1
  · rw [grow_eq] at h1
    rcases List.mem_append.mp h1 with h2 | h2
    · exact hw w h2
    · rw [(List.mem_replicate.mp h2).2]
      decide
  · rw [h1, grow_getD, shl64_one _ hk]
    exact Nat.or_lt_two_pow (getD_lt _ _ hw) (Nat.pow_lt_pow_right (by decide) hk)

theorem NewBitSet_bit (m : Nat) : NewBitSet.bit m = false := by
  simp only [BitSet.bit, NewBitSet]
  by_cases h : m / 64 = 0
  · rw [h]; simp
  · rw [List.getD_eq_default _ _ (by simp; omega)]; simp

theorem empty_bit (m : Nat) : (BitSet.mk []).bit m = false := by
  simp [BitSet.bit]

/-- A sequence of `Set` calls with non-negative indices returns normally, and
the bits of the result are the old bits together with the indices set. -/
theorem setAll_bit : ∀ (is : List Int), (∀ x ∈ is, 0 ≤ x) → ∀ (b : BitSet),
    ∃ b', b.setAll is = .ok b' ∧ ∀ m : Nat, b'.bit m = (decide ((m : Int) ∈ is) || b.bit m) := by
  intro is
  induction is with
  | nil => intro _ b; exact ⟨b, rfl, fun m => by simp⟩
  | cons i is ih =>
    intro hs b
    obtain ⟨n, rfl⟩ := Int.eq_ofNat_of_zero_le (hs i (List.mem_cons_self _ _))
    have hset := Set_ofNat b n
    obtain ⟨b', hb', hbit⟩ := ih (fun x hx => hs x (List.mem_cons_of_mem _ hx)) _
    refine ⟨b', ?_, ?_⟩
    · rw [BitSet.setAll, hset]
      exact hb'
    · intro m
      rw [hbit m, Set_ofNat_bit b _ n m hset]
      by_cases h1 : m = n
      · subst h1; simp
      · have h2 : ¬ ((m : Int) = (n : Int)) := by omega
        simp [h1, h2]

/-! ## Claims on the BitSet -/

/-- C1: after any finite sequence of `Set` calls with non-negative indices on
`NewBitSet()` or on the zero-value BitSet, the calls all return, and `Has(i)`
for a non-negative `i` is true exactly when `i` occurs in the sequence. -/
theorem C1_bitset_membership (is : List Int) (hs : ∀ x ∈ is, 0 ≤ x) (i : Int) (hi : 0 ≤ i) :
    (∃ b', NewBitSet.setAll is = .ok b' ∧ b'.Has i = .ok (decide (i ∈ is), b')) ∧
    (∃ b', (BitSet.mk []).setAll is = .ok b' ∧ b'.Has i = .ok (decide (i ∈ is), b')) := by
  obtain ⟨n, rfl⟩ := Int.eq_ofNat_of_zero_le hi
  constructor
  · obtain ⟨b', hb', hbit⟩ := setAll_bit is hs NewBitSet
    refine ⟨b', hb', ?_⟩
    rw [Has_ofNat, hbit n, NewBitSet_bit, Bool.or_false]
  · obtain ⟨b', hb', hbit⟩ := setAll_bit is hs (BitSet.mk [])
    refine ⟨b', hb', ?_⟩
    rw [Has_ofNat, hbit n, empty_bit, Bool.or_false]

theorem C1_bitset_membership_witness :
    (∀ x ∈ [130, 3, 64], (0 : Int) ≤ x) ∧ (0 : Int) ≤ 130 ∧
    ((∃ b', NewBitSet.setAll [130, 3, 64] = .ok b' ∧
        b'.Has 130 = .ok (decide ((130 : Int) ∈ [130, 3, 64]), b')) ∧
     (∃ b', (BitSet.mk []).setAll [130, 3, 64] = .ok b' ∧
        b'.Has 130 = .ok (decide ((130 : Int) ∈ [130, 3, 64]), b'))) :=
  ⟨by decide, by decide, C1_bitset_membership [130, 3, 64] (by decide) 130 (by decide)⟩

/-- C2 fails on negative indices: on `NewBitSet()`, `Has(-1)` and `Set(-1)`
panic on the negative shift count, and `Has(-64)` and `Set(-64)` panic on the
word index `-1`. -/
theorem C2_negative_index_faults :
    NewBitSet.Has (-1) = .error .negativeShift ∧
    NewBitSet.Set (-1) = .error .negativeShift ∧
    NewBitSet.Has (-64) = .error .indexOutOfRange ∧
    NewBitSet.Set (-64) = .error .indexOutOfRange := by
  decide

/-- C2, amended: for every BitSet state and every non-negative index, `Set`
and `Has` return without a fault; `Set` grows the storage to
`max(len, idx/64 + 1)` words, `Has` leaves it unchanged and returns `false`
when the word index is at or beyond the storage. -/
theorem C2_total_on_nonneg (b : BitSet) (idx : Int) (h : 0 ≤ idx) :
    (∃ b', b.Set idx = .ok b' ∧
      (b'.set.length : Int) = max (b.set.length : Int) (idx.tdiv 64 + 1)) ∧
    (∃ r, b.Has idx = .ok (r, b)) ∧
    ((b.set.length : Int) ≤ idx.tdiv 64 → b.Has idx = .ok (false, b)) := by
  obtain ⟨n, rfl⟩ := Int.eq_ofNat_of_zero_le h
  refine ⟨⟨_, Set_ofNat b n, ?_⟩, ⟨_, Has_ofNat b n⟩, ?_⟩
  · rw [List.length_set, grow_length, tdiv_ofNat]
  · intro hlen
    simp only [BitSet.Has]
    rw [if_pos hlen]

theorem C2_total_on_nonneg_witness :
    (0 : Int) ≤ 130 ∧
    ((∃ b', NewBitSet.Set 130 = .ok b' ∧
      (b'.set.length : Int) = max (NewBitSet.set.length : Int) ((130 : Int).tdiv 64 + 1)) ∧
    (∃ r, NewBitSet.Has 130 = .ok (r, NewBitSet)) ∧
    ((NewBitSet.set.length : Int) ≤ (130 : Int).tdiv 64 →
      NewBitSet.Has 130 = .ok (false, NewBitSet))) :=
  ⟨by decide, C2_total_on_nonneg NewBitSet 130 (by decide)⟩

/-- C8: for every BitSet state and all non-negative indices `i` and `j`,
`Set(i)` returns, and `Has(j)` on the result is `(j = i) || Has(j)` on the
state before. -/
theorem C8_set_has_law (b : BitSet) (i j : Int) (hi : 0 ≤ i) (hj : 0 ≤ j) :
    ∃ b' r, b.Set i = .ok b' ∧ b.Has j = .ok (r, b) ∧
      b'.Has j = .ok (decide (j = i) || r, b') := by
  obtain ⟨n, rfl⟩ := Int.eq_ofNat_of_zero_le hi
  obtain ⟨m, rfl⟩ := Int.eq_ofNat_of_zero_le hj
  refine ⟨_, b.bit m, Set_ofNat b n, Has_ofNat b m, ?_⟩
  have e : decide ((m : Int) = (n : Int)) = decide (m = n) := by
    simp only [decide_eq_decide]
    omega
  rw [Has_ofNat, Set_ofNat_bit b _ n m (Set_ofNat b n), e]

theorem C8_set_has_law_witness :
    (0 : Int) ≤ 130 ∧ (0 : Int) ≤ 129 ∧
    ∃ b' r, (BitSet.mk [5]).Set 130 = .ok b' ∧ (BitSet.mk [5]).Has 129 = .ok (r, BitSet.mk [5]) ∧
      b'.Has 129 = .ok (decide ((129 : Int) = 130) || r, b') :=
  ⟨by decide, by decide, C8_set_has_law (BitSet.mk [5]) 130 129 (by decide) (by decide)⟩

/-- C9: for a BitSet with `n` words and a non-negative index `idx`, the
conditions `idx / 64 >= n` and `idx >= 64 * n` are equivalent, and under them
`Has(idx)` returns `false` without a fault and with the storage unchanged. -/
theorem C9_has_out_of_range (b : BitSet) (idx : Int) (h0 : 0 ≤ idx) :
    ((b.set.length : Int) ≤ idx.tdiv 64 ↔ 64 * (b.set.length : Int) ≤ idx) ∧
    ((b.set.length : Int) ≤ idx.tdiv 64 → b.Has idx = .ok (false, b)) := by
  constructor
  · rw [Int.tdiv_eq_ediv h0 (by omega)]
    omega
  · intro h
    simp only [BitSet.Has]
    rw [if_pos h]

theorem C9_has_out_of_range_witness :
    (0 : Int) ≤ 1000 ∧ (((BitSet.mk [0, 0, 4]).set.length : Int) ≤ (1000 : Int).tdiv 64) ∧
    (BitSet.mk [0, 0, 4]).Has 1000 = .ok (false, BitSet.mk [0, 0, 4]) :=
  ⟨by decide, by decide,
    (C9_has_out_of_range (BitSet.mk [0, 0, 4]) 1000 (by decide)).2 (by decide)⟩

/-! ## The storage after `Set` -/

/-- The number of words after `Set n`. -/
theorem Set_ofNat_length (b b' : BitSet) (n : Nat) (h : b.Set (n : Int) = .ok b') :
    b'.set.length = max b.set.length (n / 64 + 1) := by
  rw [Set_ofNat] at h
  injection h with h
  subst h
  have e := grow_length b.set ((n / 64 : Nat) : Int)
  rw [List.length_set]
  omega

/-- The words after `Set n`, with words beyond the storage read as zero: word
`n / 64` has the bit OR-ed in, every other word is as before. -/
theorem Set_ofNat_getD (b b' : BitSet) (n j : Nat) (h : b.Set (n : Int) = .ok b') :
    b'.set.getD j 0
      = if j = n / 64 then b.set.getD j 0 ||| shl64 1 (n % 64) else b.set.getD j 0 := by
  have hx := grow_exit b.set ((n / 64 : Nat) : Int)
  have hlen : n / 64 < (grow b.set ((n / 64 : Nat) : Int)).length := by omega
  rw [Set_ofNat] at h
  injection h with h
  subst h
  by_cases hj : j = n / 64
  · rw [if_pos hj, hj, List.getD_eq_getElem?_getD, List.getElem?_set_self hlen]
    simp only [Option.getD_some]
    rw [grow_getD]
  · rw [if_neg hj, List.getD_eq_getElem?_getD, List.getElem?_set_ne (Ne.symm hj),
      ← List.getD_eq_getElem?_getD, grow_getD]

/-- Two storages with the same number of words and the same words are equal. -/
theorem set_ext (s t : List Nat) (hl : s.length = t.length)
    (hw : ∀ j, s.getD j 0 = t.getD j 0) : s = t := by
  apply List.ext_getElem hl
  intro j h1 h2
  have e := hw j
  rw [List.getD_eq_getElem _ _ h1, List.getD_eq_getElem _ _ h2] at e
  exact e

/-- Calling `Set` on a non-negative index returns normally, in the form used
for sequences of calls. -/
theorem Set_ofNat_ok (b : BitSet) (n : Nat) : ∃ b', b.Set (n : Int) = .ok b' :=
  ⟨_, Set_ofNat b n⟩

theorem setAll_cons_ok (b b' : BitSet) (i : Int) (is : List Int) (h : b.Set i = .ok b') :
    b.setAll (i :: is) = b'.setAll is := by
  rw [BitSet.setAll, h]

/-- The number of words after a sequence of `Set` calls is the least bound
of the old number of words and of `idx/64 + 1` over the indices set. -/
theorem setAll_length : ∀ (is : List Int), (∀ x ∈ is, 0 ≤ x) → ∀ (b b' : BitSet),
    b.setAll is = .ok b' → ∀ L : Nat,
      (b'.set.length ≤ L ↔ b.set.length ≤ L ∧ ∀ x ∈ is, (x.tdiv 64).toNat + 1 ≤ L) := by
  intro is
  induction is with
  | nil =>
    intro _ b b' h L
    simp only [BitSet.setAll, Except.ok.injEq] at h
    subst h
    simp
  | cons i is ih =>
    intro hs b b' h L
    obtain ⟨n, rfl⟩ := Int.eq_ofNat_of_zero_le (hs i (List.mem_cons_self _ _))
    obtain ⟨b1, h1⟩ := Set_ofNat_ok b n
    rw [setAll_cons_ok b b1 _ _ h1] at h
    rw [ih (fun x hx => hs x (List.mem_cons_of_mem _ hx)) b1 b' h L,
      Set_ofNat_length b b1 n h1]
    simp only [List.mem_cons, forall_eq_or_imp, tdiv_ofNat, Int.toNat_ofNat]
    constructor
    · rintro ⟨ha, hb⟩
      exact ⟨by omega, by omega, hb⟩
    · rintro ⟨ha, hb, hc⟩
      exact ⟨by omega, hc⟩

/-- A sequence of `Set` calls keeps the words 64-bit words. -/
theorem setAll_words_lt : ∀ (is : List Int), (∀ x ∈ is, 0 ≤ x) → ∀ (b b' : BitSet),
    b.setAll is = .ok b' → (∀ w ∈ b.set, w < 2 ^ 64) → ∀ w ∈ b'.set, w < 2 ^ 64 := by
  intro is
  induction is with
  | nil =>
    intro _ b b' h hw
    simp only [BitSet.setAll, Except.ok.injEq] at h
    subst h
    exact hw
  | cons i is ih =>
    intro hs b b' h hw
    obtain ⟨n, rfl⟩ := Int.eq_ofNat_of_zero_le (hs i (List.mem_cons_self _ _))
    obtain ⟨b1, h1⟩ := Set_ofNat_ok b n
    rw [setAll_cons_ok b b1 _ _ h1] at h
    exact ih (fun x hx => hs x (List.mem_cons_of_mem _ hx)) b1 b' h
      (Set_words_lt b b1 n h1 hw)

/-- Two storages of 64-bit words with the same number of words and the same
bits are equal. -/
theorem eq_of_bit_eq (b1 b2 : BitSet) (hl : b1.set.length = b2.set.length)
    (hw1 : ∀ w ∈ b1.set, w < 2 ^ 64) (hw2 : ∀ w ∈ b2.set, w < 2 ^ 64)
    (hb : ∀ m, b1.bit m = b2.bit m) : b1 = b2 := by
  have hs : b1.set = b2.set := by
    apply set_ext _ _ hl
    intro j
    apply Nat.eq_of_testBit_eq
    intro t
    by_cases ht : t < 64
    · have e := hb (64 * j + t)
      simp only [BitSet.bit] at e
      have e1 : (64 * j + t) / 64 = j := by omega
      have e2 : (64 * j + t) % 64 = t := by omega
      rw [e1, e2] at e
      exact e
    · have hp : (2 : Nat) ^ 64 ≤ 2 ^ t := Nat.pow_le_pow_right (by decide) (by omega)
      rw [Nat.testBit_lt_two_pow (lt_of_lt_of_le (getD_lt b1.set j hw1) hp),
        Nat.testBit_lt_two_pow (lt_of_lt_of_le (getD_lt b2.set j hw2) hp)]
  cases b1
  cases b2
  simp only at hs
  rw [hs]

theorem NewBitSet_words_lt : ∀ w ∈ NewBitSet.set, w < 2 ^ 64 := by decide

/-! ## More claims on the BitSet -/

/-- C11: for a BitSet with `n` words and a non-negative index `idx`, `Set(idx)`
returns and leaves exactly `max(n, idx/64 + 1)` words, never fewer than `n`;
each of the first `n` words is the old word, with bit `idx%64` OR-ed in at
position `idx/64`; each appended word is zero, except the one at position
`idx/64`, the last, which is `2^(idx%64)`. -/
theorem C11_set_storage_shape (b : BitSet) (idx : Int) (h0 : 0 ≤ idx) :
    ∃ b', b.Set idx = .ok b' ∧
      b'.set.length = max b.set.length ((idx.tdiv 64).toNat + 1) ∧
      b.set.length ≤ b'.set.length ∧
      (∀ j (hj : j < b.set.length), b'.set[j]? = some
        (if j = (idx.tdiv 64).toNat then b.set[j] ||| 2 ^ (idx.tmod 64).toNat else b.set[j])) ∧
      (∀ j, b.set.length ≤ j → j < b'.set.length → b'.set[j]? = some
        (if j = (idx.tdiv 64).toNat then 2 ^ (idx.tmod 64).toNat else 0)) ∧
      (b.set.length ≤ (idx.tdiv 64).toNat → (idx.tdiv 64).toNat + 1 = b'.set.length) := by
  obtain ⟨n, rfl⟩ := Int.eq_ofNat_of_zero_le h0
  have hk : n % 64 < 64 := Nat.mod_lt _ (by decide)
  obtain ⟨b', hs⟩ := Set_ofNat_ok b n
  have hl := Set_ofNat_length b b' n hs
  rw [tdiv_ofNat, tmod_ofNat, Int.toNat_ofNat, Int.toNat_ofNat]
  refine ⟨b', hs, hl, ?_, ?_, ?_, ?_⟩
  · rw [hl]
    exact Nat.le_max_left _ _
  · intro j hj
    have hj' : j < b'.set.length := by
      rw [hl]
      exact lt_of_lt_of_le hj (Nat.le_max_left _ _)
    have e := Set_ofNat_getD b b' n j hs
    rw [List.getD_eq_getElem _ _ hj', List.getD_eq_getElem _ _ hj, shl64_one _ hk] at e
    rw [List.getElem?_eq_getElem hj', e]
  · intro j hj1 hj2
    have e := Set_ofNat_getD b b' n j hs
    rw [List.getD_eq_getElem _ _ hj2, List.getD_eq_default _ _ hj1, shl64_one _ hk,
      Nat.zero_or] at e
    rw [List.getElem?_eq_getElem hj2, e]
  · intro hle
    rw [hl]
    omega

theorem C11_set_storage_shape_witness :
    (0 : Int) ≤ 130 ∧
    ∃ b', (BitSet.mk [5]).Set 130 = .ok b' ∧
      b'.set.length = max (BitSet.mk [5]).set.length (((130 : Int).tdiv 64).toNat + 1) ∧
      (BitSet.mk [5]).set.length ≤ b'.set.length ∧
      (∀ j (hj : j < (BitSet.mk [5]).set.length), b'.set[j]? = some
        (if j = ((130 : Int).tdiv 64).toNat
          then (BitSet.mk [5]).set[j] ||| 2 ^ ((130 : Int).tmod 64).toNat
          else (BitSet.mk [5]).set[j])) ∧
      (∀ j, (BitSet.mk [5]).set.length ≤ j → j < b'.set.length → b'.set[j]? = some
        (if j = ((130 : Int).tdiv 64).toNat then 2 ^ ((130 : Int).tmod 64).toNat else 0)) ∧
      ((BitSet.mk [5]).set.length ≤ ((130 : Int).tdiv 64).toNat →
        ((130 : Int).tdiv 64).toNat + 1 = b'.set.length) :=
  ⟨by decide, C11_set_storage_shape (BitSet.mk [5]) 130 (by decide)⟩

/-- C12: from `NewBitSet()`, `Set(130)` returns and leaves the three words
`0, 0, 4` (only bit 2 of the third word); on that storage `Has(i)` for a
non-negative `i` returns without a fault, `true` for `i = 130` and `false`
for every other index, among them 128, 129, 131, 2, 66 and indices far beyond
the three words. -/
theorem C12_word_boundary (i : Int) (hi : 0 ≤ i) :
    NewBitSet = BitSet.mk [0] ∧
    NewBitSet.Set 130 = .ok (BitSet.mk [0, 0, 4]) ∧
    (BitSet.mk [0, 0, 4]).Has i = .ok (decide (i = 130), BitSet.mk [0, 0, 4]) ∧
    (BitSet.mk [0, 0, 4]).Has 130 = .ok (true, BitSet.mk [0, 0, 4]) ∧
    (∀ x ∈ [128, 129, 131, 2, 66, 192, 1000000000000],
      (BitSet.mk [0, 0, 4]).Has x = .ok (false, BitSet.mk [0, 0, 4])) := by
  have hset : NewBitSet.Set 130 = .ok (BitSet.mk [0, 0, 4]) := by decide
  refine ⟨rfl, hset, ?_, by decide, by decide⟩
  obtain ⟨m, rfl⟩ := Int.eq_ofNat_of_zero_le hi
  have e : decide ((m : Int) = 130) = decide (m = 130) := by
    simp only [decide_eq_decide]
    omega
  rw [Has_ofNat, Set_ofNat_bit NewBitSet _ 130 m hset, NewBitSet_bit, Bool.or_false, e]

theorem C12_word_boundary_witness :
    (0 : Int) ≤ 131 ∧
    (NewBitSet = BitSet.mk [0] ∧
    NewBitSet.Set 130 = .ok (BitSet.mk [0, 0, 4]) ∧
    (BitSet.mk [0, 0, 4]).Has 131 = .ok (decide ((131 : Int) = 130), BitSet.mk [0, 0, 4]) ∧
    (BitSet.mk [0, 0, 4]).Has 130 = .ok (true, BitSet.mk [0, 0, 4]) ∧
    (∀ x ∈ [128, 129, 131, 2, 66, 192, 1000000000000],
      (BitSet.mk [0, 0, 4]).Has x = .ok (false, BitSet.mk [0, 0, 4]))) :=
  ⟨by decide, C12_word_boundary 131 (by decide)⟩

/-- C18: for every BitSet state and every non-negative index `i`, `Set(i)`
returns, and `Set(i)` twice leaves the same storage as `Set(i)` once. -/
theorem C18_set_idempotent (b : BitSet) (i : Int) (hi : 0 ≤ i) :
    (∃ b', b.setAll [i] = .ok b') ∧ b.setAll [i, i] = b.setAll [i] := by
  obtain ⟨n, rfl⟩ := Int.eq_ofNat_of_zero_le hi
  obtain ⟨b1, h1⟩ := Set_ofNat_ok b n
  obtain ⟨b2, h2⟩ := Set_ofNat_ok b1 n
  have e1 : b.setAll [(n : Int)] = .ok b1 := by
    rw [setAll_cons_ok b b1 _ _ h1]
    rfl
  have e2 : b.setAll [(n : Int), (n : Int)] = .ok b2 := by
    rw [setAll_cons_ok b b1 _ _ h1, setAll_cons_ok b1 b2 _ _ h2]
    rfl
  refine ⟨⟨b1, e1⟩, ?_⟩
  rw [e1, e2]
  have hs : b2.set = b1.set := by
    apply set_ext
    · rw [Set_ofNat_length b1 b2 n h2, Set_ofNat_length b b1 n h1]
      omega
    · intro j
      rw [Set_ofNat_getD b1 b2 n j h2, Set_ofNat_getD b b1 n j h1]
      by_cases hj : j = n / 64
      · rw [if_pos hj, if_pos hj, Nat.or_assoc, Nat.or_self]
      · rw [if_neg hj, if_neg hj]
  cases b1
  cases b2
  simp only at hs
  rw [hs]

theorem C18_set_idempotent_witness :
    (0 : Int) ≤ 130 ∧
    ((∃ b', (BitSet.mk [5]).setAll [130] = .ok b') ∧
      (BitSet.mk [5]).setAll [130, 130] = (BitSet.mk [5]).setAll [130]) :=
  ⟨by decide, C18_set_idempotent (BitSet.mk [5]) 130 (by decide)⟩

/-- C17: for every BitSet state and all non-negative indices `i` and `j`,
`Set(i)` then `Set(j)` returns and leaves the same storage as `Set(j)` then
`Set(i)`; and two sequences of `Set` calls with the same set of non-negative
indices, applied to `NewBitSet()`, return and leave the same storage. -/
theorem C17_set_order_independent (b : BitSet) (i j : Int) (hi : 0 ≤ i) (hj : 0 ≤ j)
    (is1 is2 : List Int) (h1 : ∀ x ∈ is1, 0 ≤ x) (h2 : ∀ x ∈ is2, 0 ≤ x)
    (h12 : ∀ x ∈ is1, x ∈ is2) (h21 : ∀ x ∈ is2, x ∈ is1) :
    ((∃ b', b.setAll [i, j] = .ok b') ∧ b.setAll [i, j] = b.setAll [j, i]) ∧
    ((∃ b', NewBitSet.setAll is1 = .ok b') ∧ NewBitSet.setAll is1 = NewBitSet.setAll is2) := by
  constructor
  · obtain ⟨n, rfl⟩ := Int.eq_ofNat_of_zero_le hi
    obtain ⟨m, rfl⟩ := Int.eq_ofNat_of_zero_le hj
    obtain ⟨bn, hn⟩ := Set_ofNat_ok b n
    obtain ⟨bnm, hnm⟩ := Set_ofNat_ok bn m
    obtain ⟨bm, hm⟩ := Set_ofNat_ok b m
    obtain ⟨bmn, hmn⟩ := Set_ofNat_ok bm n
    have e1 : b.setAll [(n : Int), (m : Int)] = .ok bnm := by
      rw [setAll_cons_ok b bn _ _ hn, setAll_cons_ok bn bnm _ _ hnm]
      rfl
    have e2 : b.setAll [(m : Int), (n : Int)] = .ok bmn := by
      rw [setAll_cons_ok b bm _ _ hm, setAll_cons_ok bm bmn _ _ hmn]
      rfl
    refine ⟨⟨bnm, e1⟩, ?_⟩
    rw [e1, e2]
    have hs : bnm.set = bmn.set := by
      apply set_ext
      · rw [Set_ofNat_length bn bnm m hnm, Set_ofNat_length b bn n hn,
          Set_ofNat_length bm bmn n hmn, Set_ofNat_length b bm m hm]
        omega
      · intro k
        rw [Set_ofNat_getD bn bnm m k hnm, Set_ofNat_getD b bn n k hn,
          Set_ofNat_getD bm bmn n k hmn, Set_ofNat_getD b bm m k hm]
        by_cases hkn : k = n / 64 <;> by_cases hkm : k = m / 64
        · simp only [if_pos hkn, if_pos hkm]
          rw [Nat.or_assoc, Nat.or_comm (shl64 1 (n % 64)), ← Nat.or_assoc]
        · simp only [if_pos hkn, if_neg hkm]
        · simp only [if_neg hkn, if_pos hkm]
        · simp only [if_neg hkn, if_neg hkm]
    cases bnm
    cases bmn
    simp only at hs
    rw [hs]
  · obtain ⟨b1, e1, hb1⟩ := setAll_bit is1 h1 NewBitSet
    obtain ⟨b2, e2, hb2⟩ := setAll_bit is2 h2 NewBitSet
    refine ⟨⟨b1, e1⟩, ?_⟩
    rw [e1, e2]
    congr 1
    apply eq_of_bit_eq
    · have l1 := setAll_length is1 h1 NewBitSet b1 e1
      have l2 := setAll_length is2 h2 NewBitSet b2 e2
      apply le_antisymm
      · rw [l1]
        have := (l2 b2.set.length).mp (le_refl _)
        exact ⟨this.1, fun x hx => this.2 x (h12 x hx)⟩
      · rw [l2]
        have := (l1 b1.set.length).mp (le_refl _)
        exact ⟨this.1, fun x hx => this.2 x (h21 x hx)⟩
    · exact setAll_words_lt is1 h1 NewBitSet b1 e1 NewBitSet_words_lt
    · exact setAll_words_lt is2 h2 NewBitSet b2 e2 NewBitSet_words_lt
    · intro m
      rw [hb1 m, hb2 m]
      congr 1
      simp only [decide_eq_decide]
      exact ⟨h12 _, h21 _⟩

theorem C17_set_order_independent_witness :
    (0 : Int) ≤ 130 ∧ (0 : Int) ≤ 3 ∧
    (∀ x ∈ [130, 3, 3], (0 : Int) ≤ x) ∧ (∀ x ∈ [3, 130], (0 : Int) ≤ x) ∧
    (∀ x ∈ [130, 3, 3], x ∈ [(3 : Int), 130]) ∧ (∀ x ∈ [3, 130], x ∈ [(130 : Int), 3, 3]) ∧
    (((∃ b', (BitSet.mk [5]).setAll [130, 3] = .ok b') ∧
        (BitSet.mk [5]).setAll [130, 3] = (BitSet.mk [5]).setAll [3, 130]) ∧
      ((∃ b', NewBitSet.setAll [130, 3, 3] = .ok b') ∧
        NewBitSet.setAll [130, 3, 3] = NewBitSet.setAll [3, 130])) :=
  ⟨by decide, by decide, by decide, by decide, by decide, by decide,
    C17_set_order_independent (BitSet.mk [5]) 130 3 (by decide) (by decide)
      [130, 3, 3] [3, 130] (by decide) (by decide) (by decide) (by decide)⟩

/-! ## Registry and BitSet together -/

/-- Under the invariant `Register` returns a non-negative index. -/
theorem Register_nonneg (r : registry) (h : Inv r) (p : String) : 0 ≤ (r.Register p).1 := by
  cases hp : mapFind r.permID p with
  | some i =>
    rw [Register_of_some r p i hp]
    exact ((mem_values_iff r h i).mp
      (List.mem_map_of_mem Prod.snd (mem_of_mapFind _ _ _ hp))).1
  | none =>
    rw [Register_of_none r p hp]
    show 0 ≤ r.nextID
    rw [h.2.1]
    exact Int.ofNat_nonneg _

theorem registerTrace_nonneg : ∀ (gs : List String) (r : registry), Inv r →
    ∀ x ∈ registerTrace r gs, 0 ≤ x := by
  intro gs
  induction gs with
  | nil => intro r _ x hx; simp [registerTrace] at hx
  | cons g gs ih =>
    intro r h x hx
    rcases List.mem_cons.mp hx with e | e
    · rw [e]
      exact Register_nonneg r h g
    · exact ih _ (Inv_Register r g h) x e

/-- An entry of the map survives any sequence of `Register` calls. -/
theorem mapFind_registerAll_of_some : ∀ (gs : List String) (r : registry) (p : String) (i : Int),
    mapFind r.permID p = some i → mapFind (registerAll r gs).permID p = some i := by
  intro gs
  induction gs with
  | nil => intro r p i h; exact h
  | cons g gs ih => intro r p i h; exact ih _ p i (mapFind_Register_of_some r p g i h)

/-- The indices returned along a sequence of `Register` calls are the indices
the identifiers have in the registry left behind. -/
theorem registerTrace_final : ∀ (gs : List String) (r : registry),
    registerTrace r gs = gs.map (fun g => ((registerAll r gs).Register g).1) := by
  intro gs
  induction gs with
  | nil => intro r; rfl
  | cons g gs ih =>
    intro r
    have hg : mapFind (registerAll (r.Register g).2 gs).permID g = some (r.Register g).1 :=
      mapFind_registerAll_of_some gs _ g _ (mapFind_Register_self r g)
    simp only [registerTrace, registerAll, List.map_cons]
    rw [Register_of_some _ g _ hg, ih]

/-- The index of `q` in the registry left behind by registering `gs` is among
the indices returned for `gs` exactly when `q` is one of `gs`. -/
theorem Register_mem_registerTrace (gs : List String) (r : registry) (h : Inv r) (q : String) :
    ((registerAll r gs).Register q).1 ∈ registerTrace r gs ↔ q ∈ gs := by
  have hf := Inv_registerAll gs r h
  rw [registerTrace_final]
  simp only [List.mem_map]
  constructor
  · rintro ⟨g, hg, e⟩
    have hq := mapFind_Register_self (registerAll r gs) q
    have hg1 : mapFind (registerAll r gs).permID g = some ((registerAll r gs).Register g).1 := by
      cases hc : mapFind (registerAll r gs).permID g with
      | some i => rw [Register_of_some _ g i hc]
      | none =>
        exfalso
        have hk : g ∉ (registerAll r gs).permID.map Prod.fst := (mapFind_none_iff _ _).mp hc
        apply hk
        have hpre : ∀ (l : List String) (r0 : registry), g ∈ l →
            g ∈ (registerAll r0 l).permID.map Prod.fst := by
          intro l
          induction l with
          | nil => intro r0 hm; simp at hm
          | cons a l ihl =>
            intro r0 hm
            rcases List.mem_cons.mp hm with ea | ea
            · subst ea
              have := mapFind_registerAll_of_some l _ g _ (mapFind_Register_self r0 g)
              exact List.mem_map_of_mem Prod.fst (mem_of_mapFind _ _ _ this)
            · exact ihl _ ea
        exact hpre gs r hg
    have hg2 := mapFind_Register_of_some (registerAll r gs) g q _ hg1
    rw [e] at hg2
    rw [mapFind_inj _ (Inv_Register _ q hf) q g _ hq hg2]
    exact hg
  · intro hq
    exact ⟨q, hq, rfl⟩

/-- Building a mask from the indices `Register` returns is the sequence of
`Set` calls on those indices. -/
theorem grantAll_eq : ∀ (gs : List String) (r : registry) (b b' : BitSet),
    b.setAll (registerTrace r gs) = .ok b' → grantAll r b gs = .ok (registerAll r gs, b') := by
  intro gs
  induction gs with
  | nil =>
    intro r b b' h
    simp only [registerTrace, BitSet.setAll, Except.ok.injEq] at h
    subst h
    rfl
  | cons g gs ih =>
    intro r b b' h
    simp only [registerTrace, BitSet.setAll] at h
    simp only [grantAll, registerAll]
    cases hc : b.Set (r.Register g).1 with
    | error e =>
      rw [hc] at h
      exact Except.noConfusion h
    | ok b1 =>
      rw [hc] at h
      exact ih _ b1 b' h

/-- C16: from every reached registry state, for every list `G` of granted
identifiers and every identifier `q`: building the mask from `NewBitSet()` by
`Set(Register(g))` for each `g` of `G` returns without a fault, and on the
registry left behind `Has(Register(q))` is true exactly when `q` is in `G`. -/
theorem C16_no_permission_aliasing (ps G : List String) (q : String) :
    ∃ r' b', grantAll (reached ps) NewBitSet G = .ok (r', b') ∧
      r' = registerAll (reached ps) G ∧
      b'.Has (r'.Register q).1 = .ok (decide (q ∈ G), b') := by
  have hi := Inv_reached ps
  have hf := Inv_registerAll G (reached ps) hi
  obtain ⟨b', e, hbit⟩ := setAll_bit (registerTrace (reached ps) G)
    (registerTrace_nonneg G (reached ps) hi) NewBitSet
  refine ⟨_, b', grantAll_eq G (reached ps) NewBitSet b' e, rfl, ?_⟩
  obtain ⟨n, hn⟩ := Int.eq_ofNat_of_zero_le (Register_nonneg _ hf q)
  have hm := Register_mem_registerTrace G (reached ps) hi q
  rw [hn] at hm ⊢
  rw [Has_ofNat, hbit n, NewBitSet_bit, Bool.or_false]
  congr 2
  simp only [decide_eq_decide]
  exact hm

/-! ## The generator -/

theorem annotated_fst : ∀ fs : List Field,
    (annotated fs).map Prod.fst = fs.filter (fun f => f.permission.isSome) := by
  intro fs
  induction fs with
  | nil => rfl
  | cons f fs ih =>
    cases hp : f.permission with
    | some p =>
      rw [annotated, hp, List.filter_cons_of_pos (by simp [hp])]
      simp only [List.map_cons, ih]
    | none =>
      rw [annotated, hp, List.filter_cons_of_neg (by simp [hp])]
      exact ih

theorem annotated_snd : ∀ fs : List Field,
    (annotated fs).map Prod.snd = fs.filterMap Field.permission := by
  intro fs
  induction fs with
  | nil => rfl
  | cons f fs ih =>
    cases hp : f.permission with
    | some p =>
      rw [annotated, hp, List.filterMap_cons_some hp]
      simp only [List.map_cons, ih]
    | none =>
      rw [annotated, hp, List.filterMap_cons_none hp]
      exact ih

theorem annotated_eq_nil_iff (fs : List Field) :
    annotated fs = [] ↔ ∀ f ∈ fs, f.permission = none := by
  induction fs with
  | nil => simp [annotated]
  | cons f fs ih =>
    cases hp : f.permission with
    | some p => simp [annotated, hp]
    | none => simp [annotated, hp, ih]

theorem map_pair_eq_zip {α β γ : Type} (g : α → γ) : ∀ l : List (α × β),
    l.map (fun fp => (g fp.1, fp.2)) = List.zip ((l.map Prod.fst).map g) (l.map Prod.snd) := by
  intro l
  induction l with
  | nil => rfl
  | cons a t ih => simp only [List.map_cons, List.zip_cons_cons, ih]

/-- The emitter's output for a message with an annotated field, in terms of
the fields of the message. -/
theorem emitMessage_of_annotated (m : Message) (h : annotated m.Fields ≠ []) :
    emitMessage m =
      (m.Fields.filter (fun f => f.permission.isSome)).map
          (fun f => Decl.indexVar (slotName m.GoName f)) ++
        [Decl.initFunc (List.zip
            ((m.Fields.filter (fun f => f.permission.isSome)).map (slotName m.GoName))
            (m.Fields.filterMap Field.permission)),
         Decl.filterFields m.GoName
          ((m.Fields.filter (fun f => f.permission.isSome)).map
            (fun f => (guardCond m.GoName f, buildZeroValueStmt f)))] := by
  rw [← annotated_fst, ← annotated_snd, ← map_pair_eq_zip]
  simp only [List.map_map]
  unfold emitMessage
  cases hc : annotated m.Fields with
  | nil => exact absurd hc h
  | cons a as => rfl

theorem countP_isFilterFields_indexVar {α : Type} (g : α → String) : ∀ l : List α,
    (l.map (fun f => Decl.indexVar (g f))).countP Decl.isFilterFields = 0 := by
  intro l
  induction l with
  | nil => rfl
  | cons a t ih =>
    rw [List.map_cons, List.countP_cons_of_neg _ _ (by simp [Decl.isFilterFields])]
    exact ih

/-- C13: for every field with Go name `N`, `buildZeroValueStmt` returns
`x.N = Z` with `Z` the one literal of the policy: `nil` for a oneof member or
an explicit-optional field whatever its kind, otherwise `nil` for a list or a
map, otherwise `nil` for a message, the empty string literal for a string,
`false` for a bool and `0` for a numeric kind; the eight cases of
`TestBuildZeroValueStmt` come out as the test expects. -/
theorem C13_zero_value_mapping (f : Field) :
    (∃ Z, buildZeroValueStmt f = "x." ++ f.GoName ++ " = " ++ Z ∧
      Z ∈ ["nil", "\"\"", "false", "0"]) ∧
    (f.inOneof = true ∨ f.hasOptional = true →
      buildZeroValueStmt f = "x." ++ f.GoName ++ " = " ++ "nil") ∧
    (f.inOneof = false → f.hasOptional = false → (f.isList = true ∨ f.isMap = true) →
      buildZeroValueStmt f = "x." ++ f.GoName ++ " = " ++ "nil") ∧
    (f.inOneof = false → f.hasOptional = false → f.isList = false → f.isMap = false →
      buildZeroValueStmt f = "x." ++ f.GoName ++ " = " ++
        (match f.kind with
          | .message => "nil"
          | .string => "\"\""
          | .bool => "false"
          | .numeric => "0")) ∧
    buildZeroValueStmt ⟨"MyString", .string, false, false, false, false, f.permission⟩
      = "x.MyString = \"\"" ∧
    buildZeroValueStmt ⟨"MyInt", .numeric, false, false, false, false, f.permission⟩
      = "x.MyInt = 0" ∧
    buildZeroValueStmt ⟨"MyBool", .bool, false, false, false, false, f.permission⟩
      = "x.MyBool = false" ∧
    buildZeroValueStmt ⟨"MyList", f.kind, true, false, false, false, f.permission⟩
      = "x.MyList = nil" ∧
    buildZeroValueStmt ⟨"MyMap", f.kind, false, true, false, false, f.permission⟩
      = "x.MyMap = nil" ∧
    buildZeroValueStmt ⟨"MyMessage", .message, false, false, false, false, f.permission⟩
      = "x.MyMessage = nil" ∧
    buildZeroValueStmt ⟨"MyOptional", .string, false, false, true, false, f.permission⟩
      = "x.MyOptional = nil" ∧
    buildZeroValueStmt ⟨"MyOneof", .string, false, false, false, true, f.permission⟩
      = "x.MyOneof = nil" := by
  refine ⟨⟨zeroValue f, rfl, ?_⟩, ?_, ?_, ?_, rfl, rfl, rfl, rfl, rfl, rfl, rfl, rfl⟩
  · unfold zeroValue
    split
    · simp
    · split
      · simp
      · cases f.kind <;> simp
  · intro h
    have hc : (f.inOneof || f.hasOptional) = true := by
      rcases h with h | h <;> simp [h]
    simp only [buildZeroValueStmt, zeroValue, hc, if_true]
  · intro h1 h2 h3
    have hc : (f.isList || f.isMap) = true := by
      rcases h3 with h | h <;> simp [h]
    simp only [buildZeroValueStmt, zeroValue, h1, h2, hc, Bool.or_self, Bool.false_eq_true,
      if_false, if_true]
  · intro h1 h2 h3 h4
    simp only [buildZeroValueStmt, zeroValue, h1, h2, h3, h4, Bool.or_self, Bool.false_eq_true,
      if_false]

/-- C14: a message without an annotated field gets nothing (no `FilterFields`
method, no index declaration); a message with an annotated field gets one
index declaration per annotated field, one `init` that calls `Register` with
each annotated field's identifier, and exactly one `FilterFields` method,
whose guards are, in declaration order, `if !mask.Has(_PermIdx_<Message>_<Field>)`
with the zero-value statement of each annotated field and of no other. -/
theorem C14_emission_gating (m : Message) :
    ((∀ f ∈ m.Fields, f.permission = none) → emitMessage m = []) ∧
    ((∃ f ∈ m.Fields, f.permission ≠ none) →
      emitMessage m =
        (m.Fields.filter (fun f => f.permission.isSome)).map
            (fun f => Decl.indexVar ("_PermIdx_" ++ m.GoName ++ "_" ++ f.GoName)) ++
          [Decl.initFunc (List.zip
              ((m.Fields.filter (fun f => f.permission.isSome)).map
                (fun f => "_PermIdx_" ++ m.GoName ++ "_" ++ f.GoName))
              (m.Fields.filterMap Field.permission)),
           Decl.filterFields m.GoName
            ((m.Fields.filter (fun f => f.permission.isSome)).map
              (fun f => ("if !mask.Has(" ++ ("_PermIdx_" ++ m.GoName ++ "_" ++ f.GoName) ++ ")",
                buildZeroValueStmt f)))] ∧
      (emitMessage m).countP Decl.isFilterFields = 1) := by
  constructor
  · intro h
    have hn := (annotated_eq_nil_iff m.Fields).mpr h
    unfold emitMessage
    rw [hn]
  · rintro ⟨f, hf, hp⟩
    have hne : annotated m.Fields ≠ [] := by
      intro hn
      exact hp ((annotated_eq_nil_iff m.Fields).mp hn f hf)
    have he := emitMessage_of_annotated m hne
    refine ⟨he, ?_⟩
    rw [he, List.countP_append, countP_isFilterFields_indexVar]
    rfl

end GoFilter
